import Mathlib

/-!
# Verification of `evaluate-math-expression-simple.ts`

Shallow embedding of the arithmetic-expression evaluator from
`src/components/utils/evaluate-math-expression-simple.ts`:
a guard (`evaluateMathExpressionSimple`), a lexer (`tokenize`) and a
recursive-descent parser (`parseExpression` with `parseAddSub`,
`parseMulDiv`, `parsePercentage`, `parseUnary`, `parsePrimary`).

JavaScript numbers are modelled by `EFloat`: rationals extended with the
IEEE-754 special values Infinity, -Infinity and NaN.  The abstraction keeps
the exact arithmetic on finite values (no rounding, no overflow-to-infinity,
no negative zero); the special values arise, as in the source, from division
by zero and then propagate through the operators by the usual IEEE rules.
All values appearing in the verified properties are exactly representable,
so the abstraction agrees with float64 on them.

Exceptions (`throw` in the source) are modelled by `Except String`; the
strings are the messages thrown by the source.  The unbounded mutual
recursion of the parser is modelled with a fuel parameter threaded through
the parsing functions; every parsing function consumes one unit of fuel on
entry, and the top level supplies `10 * (tokens.length + 1)` units.  Each
cycle in the call graph (`parseUnary` to itself, `parsePrimary` back to
`parseAddSub`, and the two binary-operator loops) consumes at least one
token, and a chain of at most six calls separates consecutive
token-consuming steps, so this budget is never exhausted; fuel exhaustion
is an unreachable error branch, not source behaviour.
-/

/-- Model of a JavaScript number: a rational, or one of the IEEE-754
special values Infinity, -Infinity, NaN. -/
inductive EFloat where
  | fin (q : ℚ)
  | inf
  | neginf
  | nan
deriving DecidableEq, Repr

namespace EFloat

/-- `Number.isFinite`. -/
def isFinite : EFloat → Bool
  | .fin _ => true
  | _ => false

/-- IEEE negation. -/
def neg : EFloat → EFloat
  | .fin q => .fin (-q)
  | .inf => .neginf
  | .neginf => .inf
  | .nan => .nan

/-- IEEE addition (exact on finite values). -/
def add : EFloat → EFloat → EFloat
  | .fin a, .fin b => .fin (a + b)
  | .fin _, .inf => .inf
  | .fin _, .neginf => .neginf
  | .inf, .fin _ => .inf
  | .inf, .inf => .inf
  | .inf, .neginf => .nan
  | .neginf, .fin _ => .neginf
  | .neginf, .inf => .nan
  | .neginf, .neginf => .neginf
  | .nan, _ => .nan
  | _, .nan => .nan

/-- IEEE subtraction, as addition of the negation. -/
def sub (a b : EFloat) : EFloat := a.add b.neg

/-- IEEE multiplication (exact on finite values). -/
def mul : EFloat → EFloat → EFloat
  | .fin a, .fin b => .fin (a * b)
  | .fin a, .inf => if a > 0 then .inf else if a < 0 then .neginf else .nan
  | .fin a, .neginf => if a > 0 then .neginf else if a < 0 then .inf else .nan
  | .inf, .fin b => if b > 0 then .inf else if b < 0 then .neginf else .nan
  | .neginf, .fin b => if b > 0 then .neginf else if b < 0 then .inf else .nan
  | .inf, .inf => .inf
  | .inf, .neginf => .neginf
  | .neginf, .inf => .neginf
  | .neginf, .neginf => .inf
  | .nan, _ => .nan
  | _, .nan => .nan

/-- IEEE division (exact on finite values; a finite value divided by zero
gives a signed infinity or, for `0 / 0`, NaN — the model has no negative
zero, so the sign of a zero divisor is always positive). -/
def div : EFloat → EFloat → EFloat
  | .fin a, .fin b =>
      if b = 0 then
        if a > 0 then .inf else if a < 0 then .neginf else .nan
      else .fin (a / b)
  | .fin _, .inf => .fin 0
  | .fin _, .neginf => .fin 0
  | .inf, .fin b => if b < 0 then .neginf else .inf
  | .neginf, .fin b => if b < 0 then .inf else .neginf
  | .inf, .inf => .nan
  | .inf, .neginf => .nan
  | .neginf, .inf => .nan
  | .neginf, .neginf => .nan
  | .nan, _ => .nan
  | _, .nan => .nan

end EFloat

/-- The character class of the JavaScript regular expression `\s`
(ECMAScript WhiteSpace and LineTerminator), also the set removed by
`String.prototype.trim`. -/
def jsWhitespace (c : Char) : Bool :=
  c.toNat = 9 || c.toNat = 10 || c.toNat = 11 || c.toNat = 12 || c.toNat = 13 ||
  c.toNat = 32 || c.toNat = 0xa0 || c.toNat = 0x1680 ||
  (0x2000 ≤ c.toNat && c.toNat ≤ 0x200a) || c.toNat = 0x2028 ||
  c.toNat = 0x2029 || c.toNat = 0x202f || c.toNat = 0x205f ||
  c.toNat = 0x3000 || c.toNat = 0xfeff

/-- `String.prototype.trim`: drop leading and trailing whitespace. -/
def jsTrim (s : List Char) : List Char :=
  (((s.dropWhile jsWhitespace).reverse.dropWhile jsWhitespace)).reverse

/-- The character class of the JavaScript regular expression `\d`, the
decimal digits 0-9. -/
def isDigitChar (c : Char) : Bool :=
  48 ≤ c.toNat && c.toNat ≤ 57

/-- The character class of the guard's admissibility regular expression
`[\d.\s+\-*/%()]`. -/
def allowedChar (c : Char) : Bool :=
  isDigitChar c || c = '.' || jsWhitespace c ||
  c = '+' || c = '-' || c = '*' || c = '/' || c = '%' || c = '(' || c = ')'

/-- The guard's test `/^[\d.\s+\-*/%()]+$/.test(expr)`: at least one
character, all from the admissible class. -/
def regexAdmissible (s : List Char) : Bool :=
  !s.isEmpty && s.all allowedChar

/-- A character of a lexed number run: a digit or a decimal point
(the lexer's `/[\d.]/`). -/
def isNumChar (c : Char) : Bool :=
  isDigitChar c || c = '.'

/-- One of the five operator characters (the lexer's `/[+\-*/%]/`). -/
def isOpChar (c : Char) : Bool :=
  c = '+' || c = '-' || c = '*' || c = '/' || c = '%'

/-- Numeric value of a digit string (most significant first). -/
def digitsVal (l : List Char) : ℕ :=
  l.foldl (fun n c => 10 * n + (c.toNat - '0'.toNat)) 0

/-- Model of JavaScript `parseFloat` restricted to the runs the lexer
feeds it — a maximal run of digits and dots starting with a digit:
the longest prefix of shape `digits ['.' digits]` is read, anything from a
second dot on is ignored, so `parseFloat("1.2.3") = 1.2`.  The model reads
the decimal exactly into `ℚ` (float64 rounding is abstracted away). -/
def parseFloatQ (s : List Char) : ℚ :=
  let intPart := s.takeWhile isDigitChar
  match s.dropWhile isDigitChar with
  | '.' :: rest =>
      let fracPart := rest.takeWhile isDigitChar
      (digitsVal intPart : ℚ) + (digitsVal fracPart : ℚ) / 10 ^ fracPart.length
  | _ => (digitsVal intPart : ℚ)

/-- A token of the lexer: a number, an operator character, or a
parenthesis character. -/
inductive Token where
  | num (value : ℚ)
  | op (value : Char)
  | paren (value : Char)
deriving DecidableEq, Repr

/-- The loop of the lexer, with a fuel bound that keeps the recursion
structural (every step consumes at least one character, so any fuel
exceeding the input length behaves identically — `tokenizeGo_fuel`):
left-to-right scan, skipping whitespace, turning a maximal digit-initiated
run of digits and dots into one `num` token, each of `+ - * / %` into an
`op` token, each parenthesis into a `paren` token, and failing with
"Invalid character" on anything else — including a dot that does not sit
inside a digit-initiated run. -/
def tokenizeGo : Nat → List Char → Except String (List Token)
  | 0, _ => .error "out of fuel"
  | _ + 1, [] => .ok []
  | fuel + 1, c :: cs =>
    if jsWhitespace c then tokenizeGo fuel cs
    else if isDigitChar c then
      match tokenizeGo fuel ((c :: cs).dropWhile isNumChar) with
      | .ok ts => .ok (.num (parseFloatQ ((c :: cs).takeWhile isNumChar)) :: ts)
      | .error e => .error e
    else if isOpChar c then
      match tokenizeGo fuel cs with
      | .ok ts => .ok (.op c :: ts)
      | .error e => .error e
    else if c = '(' || c = ')' then
      match tokenizeGo fuel cs with
      | .ok ts => .ok (.paren c :: ts)
      | .error e => .error e
    else .error "Invalid character"

/-- The lexer `tokenize`, with enough fuel for its whole input. -/
def tokenize (l : List Char) : Except String (List Token) :=
  tokenizeGo (l.length + 1) l

mutual

/-- `parseAddSub`: parse a `parseMulDiv` operand, then fold further `+`/`-`
operands left to right (the source's while loop, as `parseAddSubLoop`). -/
def parseAddSub : Nat → List Token → Except String (EFloat × List Token)
  | 0, _ => .error "out of fuel"
  | fuel + 1, ts =>
    match parseMulDiv fuel ts with
    | .error e => .error e
    | .ok (left, rest) => parseAddSubLoop fuel left rest

/-- The while loop of `parseAddSub`: while the next token is the operator
`+` or `-`, consume it, parse a `parseMulDiv` operand and combine eagerly. -/
def parseAddSubLoop : Nat → EFloat → List Token → Except String (EFloat × List Token)
  | 0, _, _ => .error "out of fuel"
  | fuel + 1, left, ts =>
    match ts with
    | .op c :: rest =>
      if c = '+' || c = '-' then
        match parseMulDiv fuel rest with
        | .error e => .error e
        | .ok (right, rest2) =>
          parseAddSubLoop fuel (if c = '+' then left.add right else left.sub right) rest2
      else .ok (left, ts)
    | _ => .ok (left, ts)

/-- `parseMulDiv`: parse a `parsePercentage` operand, then fold further
`*`/`/` operands left to right (the source's while loop, as
`parseMulDivLoop`). -/
def parseMulDiv : Nat → List Token → Except String (EFloat × List Token)
  | 0, _ => .error "out of fuel"
  | fuel + 1, ts =>
    match parsePercentage fuel ts with
    | .error e => .error e
    | .ok (left, rest) => parseMulDivLoop fuel left rest

/-- The while loop of `parseMulDiv`: while the next token is the operator
`*` or `/`, consume it, parse a `parsePercentage` operand and combine
eagerly. -/
def parseMulDivLoop : Nat → EFloat → List Token → Except String (EFloat × List Token)
  | 0, _, _ => .error "out of fuel"
  | fuel + 1, left, ts =>
    match ts with
    | .op c :: rest =>
      if c = '*' || c = '/' then
        match parsePercentage fuel rest with
        | .error e => .error e
        | .ok (right, rest2) =>
          parseMulDivLoop fuel (if c = '*' then left.mul right else left.div right) rest2
      else .ok (left, ts)
    | _ => .ok (left, ts)

/-- `parsePercentage`: parse a `parseUnary` operand; if the next token is
the operator `%`, consume it (once) and divide the operand by 100. -/
def parsePercentage : Nat → List Token → Except String (EFloat × List Token)
  | 0, _ => .error "out of fuel"
  | fuel + 1, ts =>
    match parseUnary fuel ts with
    | .error e => .error e
    | .ok (left, rest) =>
      match rest with
      | .op '%' :: rest2 => .ok (left.div (.fin 100), rest2)
      | _ => .ok (left, rest)

/-- `parseUnary`: a leading `-` or `+` operator token is consumed and the
function recurses (so signs chain); otherwise fall through to
`parsePrimary`. -/
def parseUnary : Nat → List Token → Except String (EFloat × List Token)
  | 0, _ => .error "out of fuel"
  | fuel + 1, ts =>
    match ts with
    | .op c :: rest =>
      if c = '-' || c = '+' then
        match parseUnary fuel rest with
        | .error e => .error e
        | .ok (v, rest2) => .ok (if c = '-' then v.neg else v, rest2)
      else parsePrimary fuel ts
    | _ => parsePrimary fuel ts

/-- `parsePrimary`: a number token yields its value; an opening parenthesis
starts a nested `parseAddSub` that must be followed by a closing
parenthesis; no token left is "Unexpected end of expression"; anything
else (for example a closing parenthesis) is "Unexpected token". -/
def parsePrimary : Nat → List Token → Except String (EFloat × List Token)
  | 0, _ => .error "out of fuel"
  | fuel + 1, ts =>
    match ts with
    | [] => .error "Unexpected end of expression"
    | .num v :: rest => .ok (.fin v, rest)
    | .paren '(' :: rest =>
      match parseAddSub fuel rest with
      | .error e => .error e
      | .ok (v, rest2) =>
        match rest2 with
        | .paren ')' :: rest3 => .ok (v, rest3)
        | _ => .error "Missing closing parenthesis"
    | _ => .error "Unexpected token"

end

/-- Fuel supplied to the parser by `parseExpression`; ample for any token
sequence (at most six call-graph edges separate consecutive
token-consuming steps, so `6 * (n + 1)` would already do). -/
def parseFuel (ts : List Token) : Nat := 10 * (ts.length + 1)

/-- `parseExpression`: lex, run the top-level `parseAddSub`, and fail with
"Unexpected token after expression" when tokens remain unconsumed. -/
def parseExpression (expr : List Char) : Except String EFloat :=
  match tokenize expr with
  | .error e => .error e
  | .ok tokens =>
    match parseAddSub (parseFuel tokens) tokens with
    | .error e => .error e
    | .ok (result, rest) =>
      if rest.isEmpty then .ok result else .error "Unexpected token after expression"

/-- The guard `evaluateMathExpressionSimple`: trim; reject when the trimmed
string is longer than 200 characters or empty; reject when some character
falls outside the admissible class; otherwise parse, catching every raised
failure and replacing any non-finite result by the invalid sentinel
(`none`, the source's `undefined`). -/
def evaluateMathExpressionSimple (input : String) : Option EFloat :=
  let expr := jsTrim input.data
  if expr.length > 200 || expr.isEmpty then none
  else if !regexAdmissible expr then none
  else
    match parseExpression expr with
    | .ok result => if result.isFinite then some result else none
    | .error _ => none

/-- A character the lexer can consume from any position: whitespace, a
digit, a dot (inside a digit-initiated run), an operator, a parenthesis.
An input containing any character outside this set makes `tokenize`
fail. -/
def lexChar (c : Char) : Bool :=
  jsWhitespace c || isDigitChar c || c = '.' || isOpChar c || c = '(' || c = ')'

/-- A character the lexer can consume from a token-start position — the
set of `lexChar` without the dot.  A string made only of these always
lexes successfully. -/
def lexPlainChar (c : Char) : Bool :=
  jsWhitespace c || isDigitChar c || isOpChar c || c = '(' || c = ')'

/-! ## Helper lemmas -/

theorem jsWhitespace_eq_false_of_isDigit {c : Char} (h : isDigitChar c = true) :
    jsWhitespace c = false := by
  simp [isDigitChar] at h
  simp [jsWhitespace]
  omega

theorem mem_dropWhile_of_neg {p : Char → Bool} {c : Char} {l : List Char}
    (hc : c ∈ l) (hp : p c = false) : c ∈ l.dropWhile p := by
  induction l with
  | nil => cases hc
  | cons a l ih =>
    rw [List.dropWhile_cons]
    by_cases h : p a = true
    · rcases List.mem_cons.mp hc with rfl | hm
      · rw [h] at hp; cases hp
      · simp only [h, if_true]; exact ih hm
    · simp only [Bool.not_eq_true] at h
      simp [h, hc]

theorem mem_jsTrim {c : Char} {l : List Char} (hc : c ∈ l)
    (hw : jsWhitespace c = false) : c ∈ jsTrim l := by
  unfold jsTrim
  rw [List.mem_reverse]
  apply mem_dropWhile_of_neg _ hw
  rw [List.mem_reverse]
  exact mem_dropWhile_of_neg hc hw

theorem length_dropWhile_cons_lt {p : Char → Bool} {c : Char} (cs : List Char)
    (h : p c = true) : ((c :: cs).dropWhile p).length < (c :: cs).length := by
  rw [List.dropWhile_cons, if_pos h]
  exact Nat.lt_succ_of_le (List.dropWhile_suffix p).length_le

/-- `tokenizeGo` does not depend on fuel once the fuel exceeds the input
length: every recursive step removes at least one character. -/
theorem tokenizeGo_fuel {f1 f2 : Nat} {l : List Char}
    (h1 : l.length < f1) (h2 : l.length < f2) :
    tokenizeGo f1 l = tokenizeGo f2 l := by
  induction f1 generalizing f2 l with
  | zero => omega
  | succ f1 ih =>
    cases f2 with
    | zero => omega
    | succ f2 =>
      cases l with
      | nil => rfl
      | cons c cs =>
        have hcs1 : cs.length < f1 := by simp at h1; omega
        have hcs2 : cs.length < f2 := by simp at h2; omega
        simp only [tokenizeGo]
        by_cases hws : jsWhitespace c = true
        · simp only [hws, if_true]
          exact ih hcs1 hcs2
        · simp only [Bool.not_eq_true] at hws
          simp only [hws, Bool.false_eq_true, if_false]
          by_cases hd : isDigitChar c = true
          · simp only [hd, if_true]
            have hnum : isNumChar c = true := by simp [isNumChar, hd]
            have hlt := length_dropWhile_cons_lt cs hnum
            have hd1 : ((c :: cs).dropWhile isNumChar).length < f1 := by
              simp only [List.length_cons] at hlt; omega
            have hd2 : ((c :: cs).dropWhile isNumChar).length < f2 := by
              simp only [List.length_cons] at hlt; omega
            rw [ih hd1 hd2]
          · simp only [Bool.not_eq_true] at hd
            simp only [hd, Bool.false_eq_true, if_false]
            by_cases hop : isOpChar c = true
            · simp only [hop, if_true]
              rw [ih hcs1 hcs2]
            · simp only [Bool.not_eq_true] at hop
              simp only [hop, Bool.false_eq_true, if_false]
              by_cases hpar : (c = '(' || c = ')') = true
              · simp only [hpar, if_true]
                rw [ih hcs1 hcs2]
              · simp only [Bool.not_eq_true] at hpar
                simp only [hpar, Bool.false_eq_true, if_false]

theorem isNumChar_eq_false_of_lexChar {c : Char} (h : lexChar c = false) :
    isNumChar c = false := by
  simp only [lexChar, Bool.or_eq_false_iff] at h
  simp only [isNumChar, Bool.or_eq_false_iff]
  exact ⟨h.1.1.1.1.2, h.1.1.1.2⟩

/-- An input holding a character the lexer admits nowhere makes
`tokenizeGo` fail: the offending character is never absorbed and is
eventually dispatched on. -/
theorem tokenizeGo_error_of_bad : ∀ (fuel : Nat) (l : List Char), l.length < fuel →
    (∃ c ∈ l, lexChar c = false) → tokenizeGo fuel l = .error "Invalid character" := by
  intro fuel
  induction fuel with
  | zero => intro l h _; omega
  | succ fuel ih =>
    intro l hlen hbad
    obtain ⟨b, hb, hbadc⟩ := hbad
    cases l with
    | nil => cases hb
    | cons c cs =>
      have hlcs : cs.length < fuel := by simp at hlen; omega
      have hbcs : b ∈ cs → ∃ x ∈ cs, lexChar x = false := fun hm => ⟨b, hm, hbadc⟩
      simp only [tokenizeGo]
      by_cases hws : jsWhitespace c = true
      · simp only [hws, if_true]
        apply ih cs hlcs
        apply hbcs
        rcases List.mem_cons.mp hb with rfl | hm
        · simp [lexChar, hws] at hbadc
        · exact hm
      · simp only [Bool.not_eq_true] at hws
        simp only [hws, Bool.false_eq_true, if_false]
        by_cases hd : isDigitChar c = true
        · simp only [hd, if_true]
          have hnum : isNumChar c = true := by simp [isNumChar, hd]
          have hnb : isNumChar b = false := isNumChar_eq_false_of_lexChar hbadc
          have hmem : b ∈ (c :: cs).dropWhile isNumChar := mem_dropWhile_of_neg hb hnb
          have hlt : ((c :: cs).dropWhile isNumChar).length < fuel := by
            have := length_dropWhile_cons_lt cs hnum
            simp only [List.length_cons] at this
            omega
          rw [ih _ hlt ⟨b, hmem, hbadc⟩]
        · simp only [Bool.not_eq_true] at hd
          simp only [hd, Bool.false_eq_true, if_false]
          by_cases hop : isOpChar c = true
          · simp only [hop, if_true]
            have hm : b ∈ cs := by
              rcases List.mem_cons.mp hb with rfl | hm
              · simp [lexChar, hop] at hbadc
              · exact hm
            rw [ih cs hlcs (hbcs hm)]
          · simp only [Bool.not_eq_true] at hop
            simp only [hop, Bool.false_eq_true, if_false]
            by_cases hpar : (c = '(' || c = ')') = true
            · simp only [hpar, if_true]
              have hm : b ∈ cs := by
                rcases List.mem_cons.mp hb with rfl | hm
                · exfalso
                  simp only [Bool.or_eq_true, decide_eq_true_eq] at hpar
                  rcases hpar with h | h <;> simp [lexChar, h] at hbadc
                · exact hm
              rw [ih cs hlcs (hbcs hm)]
            · simp only [Bool.not_eq_true] at hpar
              simp only [hpar, Bool.false_eq_true, if_false]

/-- A string built only from whitespace, digits, operators and
parentheses — no dot at a dispatch position — always lexes. -/
theorem tokenizeGo_ok_of_plain : ∀ (fuel : Nat) (l : List Char), l.length < fuel →
    (∀ c ∈ l, lexPlainChar c = true) → ∃ ts, tokenizeGo fuel l = .ok ts := by
  intro fuel
  induction fuel with
  | zero => intro l h _; omega
  | succ fuel ih =>
    intro l hlen hgood
    cases l with
    | nil => exact ⟨[], rfl⟩
    | cons c cs =>
      have hlcs : cs.length < fuel := by simp at hlen; omega
      have hgcs : ∀ x ∈ cs, lexPlainChar x = true := fun x hm => hgood x (by simp [hm])
      simp only [tokenizeGo]
      by_cases hws : jsWhitespace c = true
      · simp only [hws, if_true]
        exact ih cs hlcs hgcs
      · simp only [Bool.not_eq_true] at hws
        simp only [hws, Bool.false_eq_true, if_false]
        by_cases hd : isDigitChar c = true
        · simp only [hd, if_true]
          have hnum : isNumChar c = true := by simp [isNumChar, hd]
          have hlt : ((c :: cs).dropWhile isNumChar).length < fuel := by
            have := length_dropWhile_cons_lt cs hnum
            simp only [List.length_cons] at this
            omega
          have hsub : ∀ x ∈ (c :: cs).dropWhile isNumChar, lexPlainChar x = true :=
            fun x hm => hgood x ((List.dropWhile_suffix isNumChar).subset hm)
          obtain ⟨ts, hts⟩ := ih _ hlt hsub
          rw [hts]
          exact ⟨_, rfl⟩
        · simp only [Bool.not_eq_true] at hd
          simp only [hd, Bool.false_eq_true, if_false]
          by_cases hop : isOpChar c = true
          · simp only [hop, if_true]
            obtain ⟨ts, hts⟩ := ih cs hlcs hgcs
            rw [hts]
            exact ⟨_, rfl⟩
          · simp only [Bool.not_eq_true] at hop
            simp only [hop, Bool.false_eq_true, if_false]
            by_cases hpar : (c = '(' || c = ')') = true
            · simp only [hpar, if_true]
              obtain ⟨ts, hts⟩ := ih cs hlcs hgcs
              rw [hts]
              exact ⟨_, rfl⟩
            · exfalso
              have := hgood c (by simp)
              simp only [Bool.not_eq_true] at hpar
              simp [lexPlainChar, hws, hd, hop] at this
              rcases this with h | h <;> simp [h] at hpar

/-- `takeWhile` and `dropWhile` on a list made of a block that wholly
satisfies the predicate followed by a remainder that does not start with
a satisfying element. -/
theorem takeWhile_dropWhile_block {p : Char → Bool} : ∀ (l r : List Char),
    (∀ c ∈ l, p c = true) → (∀ c ∈ r.take 1, p c = false) →
    (l ++ r).takeWhile p = l ∧ (l ++ r).dropWhile p = r := by
  intro l r hl hr
  induction l with
  | nil =>
    simp only [List.nil_append]
    cases r with
    | nil => simp
    | cons x xs =>
      have hx := hr x (by simp)
      simp [List.takeWhile_cons, List.dropWhile_cons, hx]
  | cons a l ih =>
    have ha := hl a (by simp)
    have ihh := ih (fun c hc => hl c (by simp [hc]))
    simp [List.takeWhile_cons, List.dropWhile_cons, ha, ihh.1, ihh.2]

/-! ## The verified claims -/

/-- Claim C1: for every input string, `evaluateMathExpressionSimple`
terminates normally and returns either a finite number or the invalid
sentinel (`none`): every internal failure signal raised during lexing or
parsing, and every non-finite numeric result, is caught at the guard
boundary and normalized, so the caller never observes a raised failure or
a partial result. -/
theorem evaluate_total_finite_or_invalid (s : String) :
    evaluateMathExpressionSimple s = none ∨
      ∃ q : ℚ, evaluateMathExpressionSimple s = some (EFloat.fin q) := by
  simp only [evaluateMathExpressionSimple]
  split
  · exact Or.inl rfl
  · split
    · exact Or.inl rfl
    · split
      · rename_i r hr
        cases r with
        | fin q => exact Or.inr ⟨q, by simp [EFloat.isFinite]⟩
        | inf => exact Or.inl (by simp [EFloat.isFinite])
        | neginf => exact Or.inl (by simp [EFloat.isFinite])
        | nan => exact Or.inl (by simp [EFloat.isFinite])
      · exact Or.inl rfl

/-- Claim C2: an input whose trimmed form is empty, or whose trimmed form
is longer than 200 characters, is rejected as invalid. -/
theorem evaluate_invalid_of_blank_or_long (s : String)
    (h : jsTrim s.data = [] ∨ 200 < (jsTrim s.data).length) :
    evaluateMathExpressionSimple s = none := by
  simp only [evaluateMathExpressionSimple]
  rcases h with h | h
  · simp [h]
  · simp [h]

theorem evaluate_invalid_of_blank_or_long_witness :
    (jsTrim ("   ").data = [] ∨ 200 < (jsTrim ("   ").data).length) ∧
      evaluateMathExpressionSimple "   " = none :=
  ⟨Or.inl (by decide), evaluate_invalid_of_blank_or_long "   " (Or.inl (by decide))⟩

/-- Claim C3: an input containing at least one character outside the
class of digits, dot, whitespace, the five operators and the two
parentheses is rejected as invalid. -/
theorem evaluate_invalid_of_disallowed_char (s : String)
    (h : ∃ c ∈ s.data, allowedChar c = false) :
    evaluateMathExpressionSimple s = none := by
  obtain ⟨c, hc, hbad⟩ := h
  have hws : jsWhitespace c = false := by
    cases hws : jsWhitespace c
    · rfl
    · exfalso
      have : allowedChar c = true := by simp [allowedChar, hws]
      rw [this] at hbad; cases hbad
  have hmem : c ∈ jsTrim s.data := mem_jsTrim hc hws
  have hall : (jsTrim s.data).all allowedChar = false := by
    cases hA : (jsTrim s.data).all allowedChar
    · rfl
    · exfalso
      have := List.all_eq_true.mp hA c hmem
      rw [this] at hbad; cases hbad
  simp only [evaluateMathExpressionSimple]
  split
  · rfl
  · simp [regexAdmissible, hall]

theorem evaluate_invalid_of_disallowed_char_witness :
    (∃ c ∈ ("2a").data, allowedChar c = false) ∧
      evaluateMathExpressionSimple "2a" = none :=
  ⟨by decide, evaluate_invalid_of_disallowed_char "2a" (by decide)⟩

/-- Claim C4, counterexample: the claim asserts that `tokenize` succeeds
on `".5"` because the dot belongs to the admissible character set; in
fact a dot at a token-start position matches no branch of the lexer, so
`tokenize ".5"` fails with "Invalid character". -/
theorem tokenize_dot_start_invalid_character :
    tokenize (".5").data = .error "Invalid character" := rfl

/-- Claim C4, amended: `tokenize` fails with a "malformed input" signal
on every input containing a character that is not whitespace, a digit,
a dot, one of the five operators, or a parenthesis; and on every string
built only from whitespace, digits, operators and parentheses — a dot is
admissible only inside a digit-initiated number run, not at a token-start
position — it succeeds and returns a finite token sequence. -/
theorem tokenize_bad_char_fails_plain_succeeds (l : List Char) :
    ((∃ c ∈ l, lexChar c = false) → tokenize l = .error "Invalid character") ∧
    ((∀ c ∈ l, lexPlainChar c = true) → ∃ ts, tokenize l = .ok ts) := by
  constructor
  · intro h
    exact tokenizeGo_error_of_bad _ _ (Nat.lt_succ_self _) h
  · intro h
    exact tokenizeGo_ok_of_plain _ _ (Nat.lt_succ_self _) h

theorem tokenize_bad_char_fails_plain_succeeds_witness :
    tokenize ("a").data = .error "Invalid character" ∧
      ∃ ts, tokenize ("1+2").data = .ok ts :=
  ⟨(tokenize_bad_char_fails_plain_succeeds ("a").data).1 (by decide),
   (tokenize_bad_char_fails_plain_succeeds ("1+2").data).2 (by decide)⟩

/-- Claim C5: multiplication and division bind tighter than addition and
subtraction, additive and multiplicative chains evaluate eagerly left to
right, parentheses override precedence, and whitespace between tokens is
ignored. -/
theorem evaluate_precedence_parens_whitespace :
    evaluateMathExpressionSimple "2 + 3 * 4" = some (.fin 14) ∧
    evaluateMathExpressionSimple "(2 + 3) * 4" = some (.fin 20) ∧
    evaluateMathExpressionSimple "  10   *   (  5 + 3 )  " = some (.fin 80) := by
  with_unfolding_all decide

/-- Claim C6: `%` divides the immediately preceding unary result by 100,
binding tighter than `*` and `/`, and unary signs may chain by
recursion. -/
theorem evaluate_percent_and_unary_chains :
    evaluateMathExpressionSimple "50%" = some (.fin (1 / 2)) ∧
    evaluateMathExpressionSimple "100 * 50%" = some (.fin 50) ∧
    evaluateMathExpressionSimple "--5" = some (.fin 5) ∧
    evaluateMathExpressionSimple "-50%" = some (.fin (-(1 / 2))) := by
  with_unfolding_all decide

/-- Claim C7: division by zero does not make the parser fail —
`parseExpression` returns a non-finite value (here Infinity), and the
guard's finiteness check maps every non-finite parse result to invalid at
the public boundary, so `evaluateMathExpressionSimple "5 / 0"` is
invalid. -/
theorem div_zero_nonfinite_guarded :
    parseExpression ("5 / 0").data = .ok EFloat.inf ∧
    (∀ (s : String) (v : EFloat), parseExpression (jsTrim s.data) = .ok v →
      v.isFinite = false → evaluateMathExpressionSimple s = none) ∧
    evaluateMathExpressionSimple "5 / 0" = none := by
  refine ⟨by with_unfolding_all rfl, ?_, by with_unfolding_all decide⟩
  intro s v hp hf
  simp only [evaluateMathExpressionSimple]
  split
  · rfl
  · split
    · rfl
    · rw [hp]
      simp [hf]

theorem div_zero_nonfinite_guarded_witness :
    parseExpression (jsTrim ("5 / 0").data) = .ok EFloat.inf ∧
      EFloat.inf.isFinite = false ∧
      evaluateMathExpressionSimple "5 / 0" = none :=
  ⟨by with_unfolding_all rfl, by decide,
   div_zero_nonfinite_guarded.2.1 "5 / 0" EFloat.inf
     (by with_unfolding_all rfl) (by decide)⟩

/-- Claim C8: unbalanced parentheses and unconsumed trailing tokens make
the whole evaluation invalid — after the top-level additive production
completes, any remaining token is a failure, a `(` whose nested
expression is not followed by `)` is a failure, and both example inputs
are rejected. -/
theorem unbalanced_or_trailing_invalid :
    (∀ (expr : List Char) (ts : List Token) (v : EFloat) (t : Token) (rest : List Token),
      tokenize expr = .ok ts → parseAddSub (parseFuel ts) ts = .ok (v, t :: rest) →
      parseExpression expr = .error "Unexpected token after expression") ∧
    (∀ (fuel : Nat) (ts : List Token) (v : EFloat) (rest2 : List Token),
      parseAddSub fuel ts = .ok (v, rest2) → rest2.head? ≠ some (Token.paren ')') →
      parsePrimary (fuel + 1) (Token.paren '(' :: ts) =
        .error "Missing closing parenthesis") ∧
    evaluateMathExpressionSimple "(2 + 3" = none ∧
    evaluateMathExpressionSimple "2 + 3)" = none := by
  refine ⟨?_, ?_, by with_unfolding_all decide, by with_unfolding_all decide⟩
  · intro expr ts v t rest h1 h2
    simp [parseExpression, h1, h2]
  · intro fuel ts v rest2 h1 h2
    simp only [parsePrimary, h1]
    split
    · simp at h2
    · rfl

theorem unbalanced_or_trailing_invalid_witness :
    tokenize ("2 + 3)").data =
        .ok [Token.num 2, Token.op '+', Token.num 3, Token.paren ')'] ∧
      parseAddSub (parseFuel [Token.num 2, Token.op '+', Token.num 3, Token.paren ')'])
          [Token.num 2, Token.op '+', Token.num 3, Token.paren ')'] =
        .ok (EFloat.fin 5, [Token.paren ')']) ∧
      parseExpression ("2 + 3)").data = .error "Unexpected token after expression" ∧
      parseAddSub 9 [Token.num 2, Token.op '+', Token.num 3] = .ok (EFloat.fin 5, []) ∧
      parsePrimary 10 [Token.paren '(', Token.num 2, Token.op '+', Token.num 3] =
        .error "Missing closing parenthesis" :=
  ⟨by with_unfolding_all rfl, by with_unfolding_all rfl,
   unbalanced_or_trailing_invalid.1 ("2 + 3)").data
     [Token.num 2, Token.op '+', Token.num 3, Token.paren ')']
     (EFloat.fin 5) (Token.paren ')') []
     (by with_unfolding_all rfl) (by with_unfolding_all rfl),
   by with_unfolding_all rfl,
   unbalanced_or_trailing_invalid.2.1 9 [Token.num 2, Token.op '+', Token.num 3]
     (EFloat.fin 5) [] (by with_unfolding_all rfl) (by simp)⟩

/-- Claim C9: a maximal run of digits and dots that starts with a digit is
consumed greedily by the lexer and emitted as exactly one number token,
without failing, even when the run contains more than one dot — `"1.2.3"`
lexes as the single number token carrying `parseFloat`'s reading 1.2. -/
theorem tokenize_digit_run_single_number :
    (∀ (c : Char) (run rest : List Char), isDigitChar c = true →
      (∀ d ∈ run, isNumChar d = true) → (∀ d ∈ rest.take 1, isNumChar d = false) →
      tokenize (c :: (run ++ rest)) =
        (tokenize rest).map (fun ts => Token.num (parseFloatQ (c :: run)) :: ts)) ∧
    tokenize ("1.2.3").data = .ok [Token.num (6 / 5)] := by
  refine ⟨?_, by with_unfolding_all rfl⟩
  intro c run rest hd hrun hrest
  have hnc : isNumChar c = true := by simp [isNumChar, hd]
  have hws := jsWhitespace_eq_false_of_isDigit hd
  have hall : ∀ d ∈ c :: run, isNumChar d = true := by
    intro d hdm
    rcases List.mem_cons.mp hdm with rfl | hm
    · exact hnc
    · exact hrun d hm
  have hspan := takeWhile_dropWhile_block (c :: run) rest hall hrest
  unfold tokenize
  simp only [tokenizeGo, hws, Bool.false_eq_true, if_false, hd, if_true]
  rw [show c :: (run ++ rest) = (c :: run) ++ rest from rfl, hspan.1, hspan.2]
  have hlt : rest.length < (((c :: run) ++ rest)).length := by
    simp
    omega
  rw [@tokenizeGo_fuel (((c :: run) ++ rest)).length (rest.length + 1) rest hlt
    (Nat.lt_succ_self _)]
  cases h : tokenizeGo (rest.length + 1) rest <;> simp [Except.map]

theorem tokenize_digit_run_single_number_witness :
    tokenize ('1' :: ((".2.3").data ++ ("+4").data)) =
      (tokenize ("+4").data).map
        (fun ts => Token.num (parseFloatQ ('1' :: (".2.3").data)) :: ts) :=
  tokenize_digit_run_single_number.1 '1' (".2.3").data ("+4").data
    (by decide) (by decide) (by decide)

/-- Claim C10: `%` never acts as an infix remainder operator and at most
one trailing `%` may follow a value — `parsePercentage` consumes at most
one `%` token after its operand, so a second `%`, or a number after a
`%`, is left unconsumed and triggers the trailing-token failure. -/
theorem percent_consumed_at_most_once :
    (∀ (fuel : Nat) (ts : List Token) (v : EFloat) (rest : List Token),
      parseUnary fuel ts = .ok (v, Token.op '%' :: Token.op '%' :: rest) →
      parsePercentage (fuel + 1) ts = .ok (v.div (.fin 100), Token.op '%' :: rest)) ∧
    parseExpression ("5 % 3").data = .error "Unexpected token after expression" ∧
    parseExpression ("50%%").data = .error "Unexpected token after expression" ∧
    evaluateMathExpressionSimple "5 % 3" = none ∧
    evaluateMathExpressionSimple "50%%" = none := by
  refine ⟨?_, by with_unfolding_all rfl, by with_unfolding_all rfl,
    by with_unfolding_all decide, by with_unfolding_all decide⟩
  intro fuel ts v rest h
  simp [parsePercentage, h]

theorem percent_consumed_at_most_once_witness :
    parseUnary 5 [Token.num 50, Token.op '%', Token.op '%'] =
      .ok (EFloat.fin 50, [Token.op '%', Token.op '%']) ∧
    parsePercentage 6 [Token.num 50, Token.op '%', Token.op '%'] =
      .ok ((EFloat.fin 50).div (.fin 100), [Token.op '%']) :=
  ⟨by with_unfolding_all rfl,
   percent_consumed_at_most_once.1 5 [Token.num 50, Token.op '%', Token.op '%']
     (EFloat.fin 50) [] (by with_unfolding_all rfl)⟩
